import Mathlib

/-!
# Wang-Landau sampling engine: a shallow embedding

This file embeds the core of the `wanglandau` Rust crate in Lean 4 and proves
the specification's claims about it.

Modelling conventions:
* `f64` values (`ln_f`, `ln_g` entries, the flatness parameter, uniform draws)
  are modelled exactly as rationals `ℚ`; `f64::exp` is an abstract function
  `expf : ℚ → ℚ` carried in the engine configuration, since no claim depends
  on its numeric values, only on the comparison `draw < expf delta`.
* `Vec<u64>` histograms are `List ℕ`, `Vec<f64>` is `List ℚ`. Rust indexing
  `v[i]` with in-range `i` becomes `List.getD v i 0` / `List.set`; claims
  whose content depends on indexing carry the spec's invariant that bin
  indices are in range as a hypothesis.
* The random source (`src/rng.rs`, a seedable PCG-64 advanced in call order)
  is an abstract state type `ρ` with a draw function `randF : ρ → ℚ × ρ`;
  the move proposer (`Move::propose`, which mutates the state in place using
  the rng) is `propose : S → ρ → S × ρ`; the mapper (`Macrospace::locate`,
  `Macrospace::bins`) is `locate : S → ℕ` together with the bin count `nbins`.
* Rust's `&mut` mutation becomes explicit state passing: `Schedule::update`
  takes the schedule state and `ln_f` and returns the new `ln_f`, the new
  schedule state and the converged flag.
-/

/-- `Params` from `src/driver.rs`: configurable parameters of the sampler. -/
structure Params where
  ln_f0 : ℚ
  ln_f_min : ℚ
  flatness : ℚ
  sweep_len : ℕ
deriving Repr, DecidableEq

/-- `Default for Params` from `src/driver.rs`. -/
def Params.default : Params :=
  { ln_f0 := 1, ln_f_min := 1 / 100000000, flatness := 8 / 10, sweep_len := 1 }

/-- The behaviour-carrying collaborators of `WLDriver` (the move proposer,
the mapper, the rng's draw function, `f64::exp`, the schedule's `update`
and the flatness criterion's `is_flat`), collected in one structure.
These are the strategy objects of `src/driver.rs`, whose behaviour is fixed
for the engine's lifetime; their mutable state (rng state, schedule state)
lives in the driver. -/
structure WLConfig (S ρ σ : Type) where
  propose : S → ρ → S × ρ
  locate : S → ℕ
  nbins : ℕ
  randF : ρ → ℚ × ρ
  expf : ℚ → ℚ
  schedUpdate : σ → ℚ → ℚ × σ × Bool
  isFlat : List ℕ → ℚ → Bool

/-- The mutable fields of `WLDriver` from `src/driver.rs`: current state,
`ln_g`, `hist`, `ln_f`, `params`, the rng state, the schedule state and the
step counter. -/
structure WLDriver (S ρ σ : Type) where
  state : S
  ln_g : List ℚ
  hist : List ℕ
  ln_f : ℚ
  params : Params
  rng : ρ
  sched : σ
  stepCount : ℕ

/-- `WLDriver::new` from `src/driver.rs`: `ln_g` and `hist` are allocated to
the bin count and zero-initialised, `ln_f := params.ln_f0`, step counter 0. -/
def WLDriver.new {S ρ σ : Type} (state : S) (nbins : ℕ) (params : Params)
    (sched : σ) (rng : ρ) : WLDriver S ρ σ :=
  { state := state
    ln_g := List.replicate nbins 0
    hist := List.replicate nbins 0
    ln_f := params.ln_f0
    params := params
    rng := rng
    sched := sched
    stepCount := 0 }

/-- The unconditional bookkeeping of `src/driver.rs` lines 263-265:
`ln_g[bin_final] += ln_f; hist[bin_final] += 1`. -/
def bookkeep {S ρ σ : Type} (d : WLDriver S ρ σ) (b : ℕ) : WLDriver S ρ σ :=
  { d with
    ln_g := d.ln_g.set b (d.ln_g.getD b 0 + d.ln_f)
    hist := d.hist.set b (d.hist.getD b 0 + 1) }

/-- One move-acceptance round: the body of the `sweep_len` loop of
`WLDriver::step` (`src/driver.rs` lines 241-266).  In the functional
embedding the Rust in-place mutation of `self.state` by `propose` followed by
`self.state = prev_state` on rejection becomes: the rejected branch keeps
`d.state` (the saved pre-proposal state) and drops the proposed state. -/
def wlRound {S ρ σ : Type} (cfg : WLConfig S ρ σ) (d : WLDriver S ρ σ) :
    WLDriver S ρ σ :=
  let binOld := cfg.locate d.state
  let pr := cfg.propose d.state d.rng
  let binNew := cfg.locate pr.1
  if binNew = binOld then
    -- accept unconditionally, no draw: rng is what `propose` left it at
    bookkeep { d with state := pr.1, rng := pr.2 } binNew
  else
    let delta := d.ln_g.getD binOld 0 - d.ln_g.getD binNew 0
    let dr := cfg.randF pr.2
    if dr.1 < cfg.expf delta then
      bookkeep { d with state := pr.1, rng := dr.2 } binNew
    else
      -- reject: restore the saved state (a no-op here), final bin is binOld
      bookkeep { d with rng := dr.2 } binOld

/-- `WLDriver::step` from `src/driver.rs` lines 240-277: `sweep_len` rounds,
then the flatness check, the conditional histogram reset and schedule update,
and the conditional step-counter increment.  Returns the updated driver and
the converged flag. -/
def WLDriver.step {S ρ σ : Type} (cfg : WLConfig S ρ σ) (d : WLDriver S ρ σ) :
    WLDriver S ρ σ × Bool :=
  let d1 := (wlRound cfg)^[d.params.sweep_len] d
  if cfg.isFlat d1.hist d1.params.flatness then
    let d2 := { d1 with hist := List.replicate d1.hist.length 0 }
    let u := cfg.schedUpdate d2.sched d2.ln_f
    let d3 := { d2 with ln_f := u.1, sched := u.2.1 }
    if u.2.2 then (d3, true)
    else ({ d3 with stepCount := d3.stepCount + 1 }, false)
  else
    ({ d1 with stepCount := d1.stepCount + 1 }, false)

/-- The driver after one `step` call, discarding the converged flag. -/
def stepD {S ρ σ : Type} (cfg : WLConfig S ρ σ) (d : WLDriver S ρ σ) :
    WLDriver S ρ σ :=
  (WLDriver.step cfg d).1

/-- `WLDriver::run` from `src/driver.rs`: up to `max_steps` calls of `step`,
stopping early the first time `step` reports convergence. -/
def WLDriver.run {S ρ σ : Type} (cfg : WLConfig S ρ σ) (d : WLDriver S ρ σ) :
    ℕ → WLDriver S ρ σ
  | 0 => d
  | n + 1 =>
    let r := WLDriver.step cfg d
    if r.2 then r.1 else WLDriver.run cfg r.1 n

/-- `Geometric` from `src/schedule.rs`. -/
structure Geometric where
  alpha : ℚ
  tol : ℚ
deriving Repr, DecidableEq

/-- `impl Schedule for Geometric` (`src/schedule.rs` lines 52-57):
`*ln_f *= self.alpha; *ln_f < self.tol`. -/
def Geometric.update (g : Geometric) (lnf : ℚ) : ℚ × Geometric × Bool :=
  let lnf2 := lnf * g.alpha
  (lnf2, g, decide (lnf2 < g.tol))

/-- `OneOverT` from `src/schedule.rs`. -/
structure OneOverT where
  t : ℕ
  tol : ℚ
deriving Repr, DecidableEq

/-- `Default for OneOverT` (`src/schedule.rs` lines 99-103): `t = 1`. -/
def OneOverT.default : OneOverT := { t := 1, tol := 1 / 100000000 }

/-- `impl Schedule for OneOverT` (`src/schedule.rs` lines 105-110):
`self.t += 1; *ln_f = 1.0 / self.t; *ln_f < self.tol`.  The incoming `ln_f`
is overwritten, not used. -/
def OneOverT.update (o : OneOverT) (_lnf : ℚ) : ℚ × OneOverT × Bool :=
  let t2 := o.t + 1
  let lnf2 := 1 / (t2 : ℚ)
  (lnf2, { o with t := t2 }, decide (lnf2 < o.tol))

/-- Iterate a schedule's `update` k times from a schedule state and an `ln_f`
value, returning the final `ln_f` and schedule state (the chain of `&mut`
calls the driver makes across flatness events). -/
def schedIter {σ : Type} (upd : σ → ℚ → ℚ × σ × Bool) : σ → ℚ → ℕ → ℚ × σ
  | s, f, 0 => (f, s)
  | s, f, k + 1 =>
    let r := upd s f
    schedIter upd r.2.1 r.1 k

/-- `Fraction::is_flat` from `src/flatness.rs` lines 41-50: false on the
empty histogram; otherwise `min >= flat * avg` where
`avg = sum / len` (population mean).  `hist.iter().min().unwrap()` after the
emptiness check is `List.min?` matched against `some`. -/
def Fraction.is_flat (hist : List ℕ) (flat : ℚ) : Bool :=
  match hist.min? with
  | none => false
  | some m => decide (flat * ((hist.sum : ℚ) / (hist.length : ℚ)) ≤ (m : ℚ))

/-- `RMS::is_flat` from `src/flatness.rs` lines 77-98: false on the empty
histogram; otherwise computes the population mean and variance and tests
`sqrt(var) / mean ≤ 1 - flat` in `f64`.  Two `f64` artefacts are modelled
explicitly: when `mean = 0` (all counts zero, since counts are naturals) the
code computes `0.0 / 0.0 = NaN` and `NaN <= x` is false, hence the `mean = 0`
branch; when `mean > 0`, `sqrt(var) / mean ≤ c` holds iff `0 ≤ c` and
`var ≤ (c * mean)^2` (both sides of the sqrt comparison are nonnegative), the
sqrt-free form used here so that the predicate stays decidable over `ℚ`. -/
def RMS.is_flat (hist : List ℕ) (flat : ℚ) : Bool :=
  if hist.isEmpty then false
  else
    let mean : ℚ := (hist.sum : ℚ) / (hist.length : ℚ)
    let var : ℚ := (hist.map (fun (h : ℕ) => ((h : ℚ) - mean) ^ 2)).sum /
      (hist.length : ℚ)
    if mean = 0 then false
    else decide (0 ≤ 1 - flat ∧ var ≤ ((1 - flat) * mean) ^ 2)

/-! ## Concrete two-bin engines used by the witness theorems -/

/-- A two-bin configuration whose moves keep the bin (`s + 2` preserves
parity), whose draws are `0`, whose `expf` is constantly `1`, whose schedule
is the identity and never converges, and whose flatness criterion is
constantly false. -/
def cfgSame : WLConfig ℕ ℕ Unit :=
  { propose := fun s r => (s + 2, r + 1)
    locate := fun s => s % 2
    nbins := 2
    randF := fun r => (0, r + 1)
    expf := fun _ => 1
    schedUpdate := fun s f => (f, s, false)
    isFlat := fun _ _ => false }

/-- As `cfgSame` but the move flips the bin (`s + 1` flips parity). -/
def cfgDiff : WLConfig ℕ ℕ Unit :=
  { propose := fun s r => (s + 1, r + 1)
    locate := fun s => s % 2
    nbins := 2
    randF := fun r => (0, r + 1)
    expf := fun _ => 1
    schedUpdate := fun s f => (f, s, false)
    isFlat := fun _ _ => true }

/-- A freshly constructed two-bin engine at state 0 with default parameters. -/
def dInit : WLDriver ℕ ℕ Unit := WLDriver.new 0 2 Params.default () 0


/-! ## List helper lemmas -/

theorem getD_set_self {α : Type} (l : List α) (i : ℕ) (v d : α)
    (h : i < l.length) : (l.set i v).getD i d = v := by
  rw [List.getD_eq_getElem?_getD, List.getElem?_set_self h]
  rfl

theorem getD_set_ne {α : Type} (l : List α) {i j : ℕ} (v d : α)
    (h : i ≠ j) : (l.set i v).getD j d = l.getD j d := by
  rw [List.getD_eq_getElem?_getD, List.getD_eq_getElem?_getD,
    List.getElem?_set_ne h]

theorem sum_set_getD_add_one (l : List ℕ) (i : ℕ) (h : i < l.length) :
    (l.set i (l.getD i 0 + 1)).sum = l.sum + 1 := by
  induction l generalizing i with
  | nil => simp at h
  | cons a t ih =>
    cases i with
    | zero => simp [List.getD_cons_zero, List.sum_cons]; omega
    | succ n =>
      have hn : n < t.length := by simpa using h
      have ht := ih n hn
      simp only [List.set_cons_succ, List.getD_cons_succ, List.sum_cons]
      omega

theorem getD_le_set_add (l : List ℚ) (b i : ℕ) (v : ℚ) (hv : 0 ≤ v) :
    l.getD i 0 ≤ (l.set b (l.getD b 0 + v)).getD i 0 := by
  rcases eq_or_ne b i with rfl | hne
  · by_cases hb : b < l.length
    · rw [getD_set_self _ _ _ _ hb]
      exact le_add_of_nonneg_right hv
    · rw [List.set_eq_of_length_le (le_of_not_lt hb)]
  · rw [getD_set_ne _ _ _ hne]

/-- `List.min?` on `ℕ` returns exactly a least element of the list. -/
theorem natList_min?_eq_some_iff {l : List ℕ} {m : ℕ} :
    l.min? = some m ↔ m ∈ l ∧ ∀ b ∈ l, m ≤ b :=
  List.min?_eq_some_iff (fun a => le_refl a) (fun a b => min_choice a b)
    (fun _ _ _ => le_min_iff)

/-! ## Schedule lemmas -/

theorem schedIter_geometric (g : Geometric) (f0 : ℚ) (k : ℕ) :
    schedIter Geometric.update g f0 k = (f0 * g.alpha ^ k, g) := by
  induction k generalizing f0 with
  | zero => simp [schedIter]
  | succ n ih =>
    show schedIter Geometric.update g (f0 * g.alpha) n = _
    rw [ih]
    rw [pow_succ]
    ring_nf

theorem schedIter_oneOverT (t0 : ℕ) (tol f0 : ℚ) (k : ℕ) :
    schedIter OneOverT.update { t := t0, tol := tol } f0 (k + 1)
      = (1 / ((t0 : ℚ) + (k : ℚ) + 1), { t := t0 + k + 1, tol := tol }) := by
  induction k generalizing t0 f0 with
  | zero =>
    show (1 / ((t0 + 1 : ℕ) : ℚ), ({ t := t0 + 1, tol := tol } : OneOverT)) = _
    push_cast
    ring_nf
  | succ n ih =>
    show schedIter OneOverT.update { t := t0 + 1, tol := tol }
        (1 / ((t0 + 1 : ℕ) : ℚ)) (n + 1) = _
    rw [ih (t0 + 1)]
    simp only [Prod.mk.injEq, OneOverT.mk.injEq]
    refine ⟨?_, ?_, trivial⟩
    · push_cast
      ring_nf
    · omega

/-- C4: for the Geometric schedule with parameters `alpha` and `tol`, each
`update` multiplies `ln_f` by `alpha` and leaves the schedule's own state
unchanged, so after `k` calls starting from `ln_f0` the value is
`ln_f0 * alpha ^ k`; the next ((k+1)-th) call returns converged exactly when
the value it just computed, `ln_f0 * alpha ^ (k+1)`, is below `tol`; and for
`0 ≤ ln_f0` and `0 < alpha < 1` the below-`tol` condition is upward closed in
`k`, so the first call returning true is the first `k` with
`ln_f0 * alpha ^ k < tol` and no earlier call returns true. -/
theorem C4_geometric_schedule (g : Geometric) (f0 : ℚ) (k : ℕ) :
    (schedIter Geometric.update g f0 k).1 = f0 * g.alpha ^ k ∧
    (schedIter Geometric.update g f0 k).2 = g ∧
    (Geometric.update (schedIter Geometric.update g f0 k).2
        (schedIter Geometric.update g f0 k).1).2.2
      = decide (f0 * g.alpha ^ (k + 1) < g.tol) ∧
    (0 ≤ f0 → 0 < g.alpha → g.alpha < 1 →
      ∀ j ≤ k, f0 * g.alpha ^ j < g.tol → f0 * g.alpha ^ k < g.tol) := by
  rw [schedIter_geometric]
  refine ⟨rfl, rfl, ?_, ?_⟩
  · show (decide (f0 * g.alpha ^ k * g.alpha < g.tol)) = _
    rw [decide_eq_decide]
    rw [pow_succ, mul_assoc]
  · intro hf0 ha0 _ j hjk hj
    have hpow : g.alpha ^ k ≤ g.alpha ^ j :=
      pow_le_pow_of_le_one (le_of_lt ha0) (by linarith) hjk
    calc f0 * g.alpha ^ k ≤ f0 * g.alpha ^ j :=
          mul_le_mul_of_nonneg_left hpow hf0
      _ < g.tol := hj

/-- Witness for C4 at `alpha = 1/2`, `tol = 1`, `ln_f0 = 0`, `k = 1`. -/
theorem C4_geometric_schedule_witness :
    (schedIter Geometric.update { alpha := 1/2, tol := 1 } 0 1).1 < 1 := by
  have h := C4_geometric_schedule { alpha := 1/2, tol := 1 } 0 1
  have h4 := h.2.2.2 (le_refl 0) one_half_pos one_half_lt_one 0
    (Nat.zero_le 1) (by simp)
  rw [h.1]
  exact h4

/-- C5: for the 1/t schedule the internal counter `t` starts at 1 (the Rust
`Default`); each `update` increments `t` and then sets `ln_f := 1/t`,
overwriting the incoming value (so the result of `update` does not depend on
the `ln_f` passed in); hence after `k+1` calls `ln_f = 1/(k+2)` and
`t = k+2`, and the (k+1)-th call returns converged exactly when the newly set
value `1/(k+2)` is below `tol`. -/
theorem C5_one_over_t_schedule (tol f0 : ℚ) (k : ℕ) :
    OneOverT.default.t = 1 ∧
    (∀ (o : OneOverT) (a b : ℚ), OneOverT.update o a = OneOverT.update o b) ∧
    (schedIter OneOverT.update { t := 1, tol := tol } f0 (k + 1)).1
      = 1 / ((k : ℚ) + 2) ∧
    (schedIter OneOverT.update { t := 1, tol := tol } f0 (k + 1)).2.t
      = k + 2 ∧
    (OneOverT.update (schedIter OneOverT.update { t := 1, tol := tol } f0 k).2
        (schedIter OneOverT.update { t := 1, tol := tol } f0 k).1).2.2
      = decide (1 / ((k : ℚ) + 2) < tol) := by
  have hiter := schedIter_oneOverT 1 tol f0 k
  refine ⟨rfl, fun o a b => rfl, ?_, ?_, ?_⟩
  · rw [hiter]
    push_cast
    ring_nf
  · rw [hiter]
    show 1 + k + 1 = k + 2
    omega
  · cases k with
    | zero =>
      show (decide ((1 : ℚ) / ((1 + 1 : ℕ) : ℚ) < tol)) = _
      rw [decide_eq_decide]
      norm_num
    | succ n =>
      rw [schedIter_oneOverT 1 tol f0 n]
      show (decide ((1 : ℚ) / (((1 + n + 1) + 1 : ℕ) : ℚ) < tol)) = _
      rw [decide_eq_decide]
      push_cast
      ring_nf

/-- C6: the Fraction criterion is a pure function returning false on the
empty histogram, and on a non-empty histogram returning true exactly when the
minimum count is at least `flat` times the mean count, the mean dividing the
total by the number of bins (population statistics).  The minimum is
characterised extensionally: a member of the histogram below all members. -/
theorem C6_fraction_is_flat (hist : List ℕ) (flat : ℚ) :
    Fraction.is_flat [] flat = false ∧
    (hist ≠ [] →
      (Fraction.is_flat hist flat = true ↔
        ∃ m, m ∈ hist ∧ (∀ x ∈ hist, m ≤ x) ∧
          flat * ((hist.sum : ℚ) / (hist.length : ℚ)) ≤ (m : ℚ))) := by
  refine ⟨rfl, fun hne => ?_⟩
  cases hmin : hist.min? with
  | none => exact absurd (List.min?_eq_none_iff.mp hmin) hne
  | some m0 =>
    obtain ⟨hm0, hmin0⟩ := natList_min?_eq_some_iff.mp hmin
    simp only [Fraction.is_flat, hmin, decide_eq_true_eq]
    constructor
    · intro hle
      exact ⟨m0, hm0, hmin0, hle⟩
    · rintro ⟨m, hm, hmle, hle⟩
      have hmm : m = m0 := le_antisymm (hmle m0 hm0) (hmin0 m hm)
      rwa [hmm] at hle

/-- Witness for C6 on the non-empty histogram `[0, 0]` with `flat = 1`. -/
theorem C6_fraction_is_flat_witness : Fraction.is_flat [0, 0] 1 = true := by
  have h := (C6_fraction_is_flat [0, 0] 1).2 (by decide)
  exact h.mpr ⟨0, by decide, by decide, by simp⟩

/-- The total count of a histogram whose entries all equal `c`. -/
theorem sum_of_all_eq (l : List ℕ) (c : ℕ) (h : ∀ x ∈ l, x = c) :
    l.sum = l.length * c := by
  induction l with
  | nil => simp
  | cons a t ih =>
    have ha : a = c := h a (List.mem_cons_self a t)
    have ht := ih (fun x hx => h x (List.mem_cons_of_mem a hx))
    simp [List.sum_cons, ha, ht]
    ring

/-- The population mean of a non-empty histogram whose entries all equal `c`
is `c`. -/
theorem mean_of_all_eq (l : List ℕ) (c : ℕ) (hne : l ≠ [])
    (h : ∀ x ∈ l, x = c) :
    ((l.sum : ℚ) / (l.length : ℚ)) = (c : ℚ) := by
  have hL : (l.length : ℚ) ≠ 0 := by
    have := List.length_pos.mpr hne
    positivity
  rw [sum_of_all_eq l c h]
  push_cast
  field_simp

/-- C7 counterexample: `[0, 0]` is a non-empty all-equal histogram and the
flatness parameter `1` lies in `(0, 1]`, yet the RMS criterion reports not
flat: its mean is `0`, so the relative standard deviation is `0.0/0.0 = NaN`
in `f64` and the `NaN ≤ 1 - flat` comparison is false. -/
theorem C7_counterexample :
    (0 : ℚ) < 1 ∧ (1 : ℚ) ≤ 1 ∧ ([0, 0] : List ℕ) ≠ [] ∧
    (∀ x ∈ ([0, 0] : List ℕ), x = 0) ∧
    RMS.is_flat [0, 0] 1 = false := by
  refine ⟨by decide, by decide, by decide, by decide, ?_⟩
  simp [RMS.is_flat]

/-- C7 (amended): for every non-empty histogram with all counts equal and
every flatness parameter in `(0, 1]`, the Fraction criterion reports flat;
the RMS criterion reports flat provided the common count is positive, and
reports not flat when all counts are zero (the `f64` computation divides the
zero standard deviation by the zero mean, yielding NaN, which fails the
comparison). -/
theorem C7_all_equal_flatness (hist : List ℕ) (c : ℕ) (flat : ℚ)
    (hne : hist ≠ []) (hall : ∀ x ∈ hist, x = c)
    (h0 : 0 < flat) (h1 : flat ≤ 1) :
    Fraction.is_flat hist flat = true ∧
    (0 < c → RMS.is_flat hist flat = true) ∧
    (c = 0 → RMS.is_flat hist flat = false) := by
  have hmean := mean_of_all_eq hist c hne hall
  have hmin : hist.min? = some c := by
    refine natList_min?_eq_some_iff.mpr ⟨?_, ?_⟩
    · cases hist with
      | nil => exact absurd rfl hne
      | cons a t => rw [← hall a (List.mem_cons_self a t)]; exact List.mem_cons_self a t
    · intro b hb
      rw [hall b hb]
  have hempty : hist.isEmpty = false := by
    cases hist with
    | nil => exact absurd rfl hne
    | cons a t => rfl
  refine ⟨?_, ?_, ?_⟩
  · simp only [Fraction.is_flat, hmin, hmean, decide_eq_true_eq]
    exact mul_le_of_le_one_left (Nat.cast_nonneg c) h1
  · intro hc
    have hcq : ((c : ℚ)) ≠ 0 := by positivity
    have hvar : (hist.map
        (fun (h : ℕ) => ((h : ℚ) - (c : ℚ)) ^ 2)).sum = 0 := by
      refine List.sum_eq_zero ?_
      intro b hb
      obtain ⟨x, hx, rfl⟩ := List.mem_map.mp hb
      show ((x : ℚ) - (c : ℚ)) ^ 2 = 0
      rw [hall x hx]
      ring
    simp only [RMS.is_flat, hempty, Bool.false_eq_true, if_false, hmean,
      hvar, zero_div, if_neg hcq]
    exact decide_eq_true ⟨by linarith, sq_nonneg _⟩
  · intro hc
    subst hc
    rw [Nat.cast_zero] at hmean
    simp only [RMS.is_flat, hempty, Bool.false_eq_true, if_false, hmean]
    simp

/-- Witness for C7 (amended) on the all-equal histograms `[3, 3]`. -/
theorem C7_all_equal_flatness_witness :
    Fraction.is_flat [3, 3] 1 = true ∧ RMS.is_flat [3, 3] 1 = true := by
  have h := C7_all_equal_flatness [3, 3] 3 1 (by decide) (by decide)
    (by decide) (by decide)
  exact ⟨h.1, h.2.1 (by decide)⟩

/-! ## Driver invariance lemmas -/

/-- One round leaves the parameters, step counter, schedule state, `ln_f`
and the lengths of `hist` and `ln_g` unchanged. -/
theorem wlRound_const {S ρ σ : Type} (cfg : WLConfig S ρ σ)
    (d : WLDriver S ρ σ) :
    (wlRound cfg d).params = d.params ∧
    (wlRound cfg d).stepCount = d.stepCount ∧
    (wlRound cfg d).sched = d.sched ∧
    (wlRound cfg d).ln_f = d.ln_f ∧
    (wlRound cfg d).hist.length = d.hist.length ∧
    (wlRound cfg d).ln_g.length = d.ln_g.length := by
  simp only [wlRound, bookkeep]
  split_ifs <;> simp [List.length_set]

/-- `wlRound_const`, iterated. -/
theorem roundsN_const {S ρ σ : Type} (cfg : WLConfig S ρ σ)
    (d : WLDriver S ρ σ) (n : ℕ) :
    ((wlRound cfg)^[n] d).params = d.params ∧
    ((wlRound cfg)^[n] d).stepCount = d.stepCount ∧
    ((wlRound cfg)^[n] d).sched = d.sched ∧
    ((wlRound cfg)^[n] d).ln_f = d.ln_f ∧
    ((wlRound cfg)^[n] d).hist.length = d.hist.length ∧
    ((wlRound cfg)^[n] d).ln_g.length = d.ln_g.length := by
  induction n with
  | zero => simp
  | succ m ih =>
    rw [Function.iterate_succ_apply']
    have h := wlRound_const cfg ((wlRound cfg)^[m] d)
    exact ⟨h.1.trans ih.1, h.2.1.trans ih.2.1, h.2.2.1.trans ih.2.2.1,
      h.2.2.2.1.trans ih.2.2.2.1, h.2.2.2.2.1.trans ih.2.2.2.2.1,
      h.2.2.2.2.2.trans ih.2.2.2.2.2⟩

/-- Every round performs exactly one bookkeeping update, at the final bin:
the bin of the proposed state or, on rejection, the bin of the old state. -/
theorem wlRound_exists_bin {S ρ σ : Type} (cfg : WLConfig S ρ σ)
    (d : WLDriver S ρ σ) :
    ∃ b, (b = cfg.locate (cfg.propose d.state d.rng).1 ∨
          b = cfg.locate d.state) ∧
      (wlRound cfg d).ln_g = d.ln_g.set b (d.ln_g.getD b 0 + d.ln_f) ∧
      (wlRound cfg d).hist = d.hist.set b (d.hist.getD b 0 + 1) := by
  simp only [wlRound, bookkeep]
  split_ifs with h1 h2
  · exact ⟨_, Or.inl rfl, rfl, rfl⟩
  · exact ⟨_, Or.inl rfl, rfl, rfl⟩
  · exact ⟨_, Or.inr rfl, rfl, rfl⟩

/-- C1: in every move-acceptance round, if the proposed state's bin equals
the current bin the move is accepted unconditionally (the new state is kept
and the final bin — the one whose histogram cell is incremented — is the
common bin); otherwise one uniform value is drawn from the random source and
the move is accepted iff that draw is strictly below
`expf (ln_g[b_old] - ln_g[b_new])`: on acceptance the new state is kept and
the final bin is `b_new`, on rejection the saved pre-proposal state is
restored and the final bin is `b_old`. -/
theorem C1_acceptance_rule {S ρ σ : Type} (cfg : WLConfig S ρ σ)
    (d : WLDriver S ρ σ) :
    (cfg.locate (cfg.propose d.state d.rng).1 = cfg.locate d.state →
      (wlRound cfg d).state = (cfg.propose d.state d.rng).1 ∧
      (wlRound cfg d).hist
        = d.hist.set (cfg.locate (cfg.propose d.state d.rng).1)
            (d.hist.getD (cfg.locate (cfg.propose d.state d.rng).1) 0 + 1)) ∧
    (cfg.locate (cfg.propose d.state d.rng).1 ≠ cfg.locate d.state →
      (wlRound cfg d).rng = (cfg.randF (cfg.propose d.state d.rng).2).2 ∧
      ((cfg.randF (cfg.propose d.state d.rng).2).1 <
          cfg.expf (d.ln_g.getD (cfg.locate d.state) 0 -
            d.ln_g.getD (cfg.locate (cfg.propose d.state d.rng).1) 0) →
        (wlRound cfg d).state = (cfg.propose d.state d.rng).1 ∧
        (wlRound cfg d).hist
          = d.hist.set (cfg.locate (cfg.propose d.state d.rng).1)
              (d.hist.getD (cfg.locate (cfg.propose d.state d.rng).1) 0 + 1)) ∧
      (¬ (cfg.randF (cfg.propose d.state d.rng).2).1 <
          cfg.expf (d.ln_g.getD (cfg.locate d.state) 0 -
            d.ln_g.getD (cfg.locate (cfg.propose d.state d.rng).1) 0) →
        (wlRound cfg d).state = d.state ∧
        (wlRound cfg d).hist
          = d.hist.set (cfg.locate d.state)
              (d.hist.getD (cfg.locate d.state) 0 + 1))) := by
  constructor
  · intro h
    simp only [wlRound, bookkeep]
    rw [if_pos h]
    exact ⟨rfl, rfl⟩
  · intro h
    simp only [wlRound, bookkeep]
    rw [if_neg h]
    by_cases hu : (cfg.randF (cfg.propose d.state d.rng).2).1 <
        cfg.expf (d.ln_g.getD (cfg.locate d.state) 0 -
          d.ln_g.getD (cfg.locate (cfg.propose d.state d.rng).1) 0)
    · rw [if_pos hu]
      exact ⟨rfl, fun _ => ⟨rfl, rfl⟩, fun hc => absurd hu hc⟩
    · rw [if_neg hu]
      exact ⟨rfl, fun hc => absurd hc hu, fun _ => ⟨rfl, rfl⟩⟩

/-- Witness for C1 on the bin-flipping engine: the round draws once
(rng goes from 0 to 2: one tick for the move, one for the draw), accepts
(the draw 0 is below `expf = 1`) and keeps the proposed state 1. -/
theorem C1_acceptance_rule_witness :
    (wlRound cfgDiff dInit).state = 1 ∧ (wlRound cfgDiff dInit).rng = 2 := by
  have h := (C1_acceptance_rule cfgDiff dInit).2 (by decide)
  have ha := h.2.1 (by decide)
  exact ⟨ha.1.trans rfl, h.1.trans rfl⟩

/-- C10: in a round whose proposed state maps to the same bin as the current
state, the acceptance check consumes no uniform draw: the rng state after
the round is exactly what the move proposer left it at. -/
theorem C10_same_bin_no_draw {S ρ σ : Type} (cfg : WLConfig S ρ σ)
    (d : WLDriver S ρ σ)
    (h : cfg.locate (cfg.propose d.state d.rng).1 = cfg.locate d.state) :
    (wlRound cfg d).rng = (cfg.propose d.state d.rng).2 := by
  simp only [wlRound, bookkeep]
  rw [if_pos h]

/-- Witness for C10 on the bin-preserving engine: the move proposer leaves
the rng at 1 and the round ends with the rng still at 1. -/
theorem C10_same_bin_no_draw_witness : (wlRound cfgSame dInit).rng = 1 := by
  have h := C10_same_bin_no_draw cfgSame dInit (by decide)
  exact h.trans rfl

/-- `step` when the histogram is flat and the schedule reports convergence:
the histogram is zeroed, the schedule mutates `ln_f`, and the step counter is
left alone. -/
theorem step_flat_conv {S ρ σ : Type} (cfg : WLConfig S ρ σ)
    (d : WLDriver S ρ σ)
    (hfl : cfg.isFlat ((wlRound cfg)^[d.params.sweep_len] d).hist
        ((wlRound cfg)^[d.params.sweep_len] d).params.flatness = true)
    (hb : (cfg.schedUpdate ((wlRound cfg)^[d.params.sweep_len] d).sched
        ((wlRound cfg)^[d.params.sweep_len] d).ln_f).2.2 = true) :
    WLDriver.step cfg d =
      ({ (wlRound cfg)^[d.params.sweep_len] d with
          hist := List.replicate
            ((wlRound cfg)^[d.params.sweep_len] d).hist.length 0
          ln_f := (cfg.schedUpdate ((wlRound cfg)^[d.params.sweep_len] d).sched
            ((wlRound cfg)^[d.params.sweep_len] d).ln_f).1
          sched := (cfg.schedUpdate
            ((wlRound cfg)^[d.params.sweep_len] d).sched
            ((wlRound cfg)^[d.params.sweep_len] d).ln_f).2.1 }, true) := by
  simp only [WLDriver.step]
  rw [if_pos hfl, if_pos hb]

/-- `step` when the histogram is flat but the schedule does not report
convergence: the histogram is zeroed, the schedule mutates `ln_f`, and the
step counter is incremented. -/
theorem step_flat_noconv {S ρ σ : Type} (cfg : WLConfig S ρ σ)
    (d : WLDriver S ρ σ)
    (hfl : cfg.isFlat ((wlRound cfg)^[d.params.sweep_len] d).hist
        ((wlRound cfg)^[d.params.sweep_len] d).params.flatness = true)
    (hb : (cfg.schedUpdate ((wlRound cfg)^[d.params.sweep_len] d).sched
        ((wlRound cfg)^[d.params.sweep_len] d).ln_f).2.2 = false) :
    WLDriver.step cfg d =
      ({ (wlRound cfg)^[d.params.sweep_len] d with
          hist := List.replicate
            ((wlRound cfg)^[d.params.sweep_len] d).hist.length 0
          ln_f := (cfg.schedUpdate ((wlRound cfg)^[d.params.sweep_len] d).sched
            ((wlRound cfg)^[d.params.sweep_len] d).ln_f).1
          sched := (cfg.schedUpdate
            ((wlRound cfg)^[d.params.sweep_len] d).sched
            ((wlRound cfg)^[d.params.sweep_len] d).ln_f).2.1
          stepCount :=
            ((wlRound cfg)^[d.params.sweep_len] d).stepCount + 1 }, false) := by
  simp only [WLDriver.step]
  rw [if_pos hfl, if_neg (by rw [hb]; exact Bool.false_ne_true)]

/-- `step` when the histogram is not flat: only the step counter changes
after the rounds. -/
theorem step_not_flat {S ρ σ : Type} (cfg : WLConfig S ρ σ)
    (d : WLDriver S ρ σ)
    (hfl : cfg.isFlat ((wlRound cfg)^[d.params.sweep_len] d).hist
        ((wlRound cfg)^[d.params.sweep_len] d).params.flatness = false) :
    WLDriver.step cfg d =
      ({ (wlRound cfg)^[d.params.sweep_len] d with
          stepCount :=
            ((wlRound cfg)^[d.params.sweep_len] d).stepCount + 1 }, false) := by
  simp only [WLDriver.step]
  rw [if_neg (by rw [hfl]; exact Bool.false_ne_true)]

/-- C2: in every `step` call, after the `sweep_len` rounds the flatness
criterion is queried on the current histogram with the configured flatness
threshold; the returned converged flag holds iff the criterion reported flat
and the schedule then reported convergence; when flat, the histogram is reset
to all-zero (same length as before) and the schedule mutates `ln_f`; when not
flat, histogram and `ln_f` are untouched; when converged the step counter is
not incremented, in every other case it grows by exactly one. -/
theorem C2_step_control_flow {S ρ σ : Type} (cfg : WLConfig S ρ σ)
    (d : WLDriver S ρ σ) :
    (WLDriver.step cfg d).2
      = (cfg.isFlat ((wlRound cfg)^[d.params.sweep_len] d).hist
            d.params.flatness
          && (cfg.schedUpdate ((wlRound cfg)^[d.params.sweep_len] d).sched
              ((wlRound cfg)^[d.params.sweep_len] d).ln_f).2.2) ∧
    (cfg.isFlat ((wlRound cfg)^[d.params.sweep_len] d).hist d.params.flatness
        = true →
      (WLDriver.step cfg d).1.hist = List.replicate d.hist.length 0 ∧
      (WLDriver.step cfg d).1.ln_f
        = (cfg.schedUpdate ((wlRound cfg)^[d.params.sweep_len] d).sched
            ((wlRound cfg)^[d.params.sweep_len] d).ln_f).1) ∧
    (cfg.isFlat ((wlRound cfg)^[d.params.sweep_len] d).hist d.params.flatness
        = false →
      (WLDriver.step cfg d).1.hist
        = ((wlRound cfg)^[d.params.sweep_len] d).hist ∧
      (WLDriver.step cfg d).1.ln_f = d.ln_f) ∧
    ((WLDriver.step cfg d).2 = true →
      (WLDriver.step cfg d).1.stepCount = d.stepCount) ∧
    ((WLDriver.step cfg d).2 = false →
      (WLDriver.step cfg d).1.stepCount = d.stepCount + 1) := by
  obtain ⟨hp, hsc, hsch, hf, hh, hg⟩ := roundsN_const cfg d d.params.sweep_len
  cases hfl : cfg.isFlat ((wlRound cfg)^[d.params.sweep_len] d).hist
      d.params.flatness with
  | false =>
    have hfl2 : cfg.isFlat ((wlRound cfg)^[d.params.sweep_len] d).hist
        ((wlRound cfg)^[d.params.sweep_len] d).params.flatness = false := by
      rw [hp]; exact hfl
    rw [step_not_flat cfg d hfl2]
    refine ⟨by simp, ?_, ?_, ?_, ?_⟩
    · intro hc
      exact absurd hc Bool.false_ne_true
    · intro _
      exact ⟨rfl, hf⟩
    · intro hc
      exact absurd hc Bool.false_ne_true
    · intro _
      show ((wlRound cfg)^[d.params.sweep_len] d).stepCount + 1 = _
      rw [hsc]
  | true =>
    have hfl2 : cfg.isFlat ((wlRound cfg)^[d.params.sweep_len] d).hist
        ((wlRound cfg)^[d.params.sweep_len] d).params.flatness = true := by
      rw [hp]; exact hfl
    cases hb : (cfg.schedUpdate ((wlRound cfg)^[d.params.sweep_len] d).sched
        ((wlRound cfg)^[d.params.sweep_len] d).ln_f).2.2 with
    | true =>
      rw [step_flat_conv cfg d hfl2 hb]
      refine ⟨by simp [hb], ?_, ?_, ?_, ?_⟩
      · intro _
        exact ⟨by rw [hh], rfl⟩
      · intro hc
        exact absurd hc.symm Bool.false_ne_true
      · intro _
        show ((wlRound cfg)^[d.params.sweep_len] d).stepCount = _
        exact hsc
      · intro hc
        exact absurd hc.symm Bool.false_ne_true
    | false =>
      rw [step_flat_noconv cfg d hfl2 hb]
      refine ⟨by simp [hb], ?_, ?_, ?_, ?_⟩
      · intro _
        exact ⟨by rw [hh], rfl⟩
      · intro hc
        exact absurd hc.symm Bool.false_ne_true
      · intro hc
        exact absurd hc Bool.false_ne_true
      · intro _
        show ((wlRound cfg)^[d.params.sweep_len] d).stepCount + 1 = _
        rw [hsc]

/-- Witness for C2 on the never-flat engine: one step reports not converged
and increments the step counter to 1. -/
theorem C2_step_control_flow_witness :
    (WLDriver.step cfgSame dInit).2 = false ∧
    (WLDriver.step cfgSame dInit).1.stepCount = 1 := by
  have h := C2_step_control_flow cfgSame dInit
  exact ⟨h.1.trans rfl, (h.2.2.2.2 (h.1.trans rfl)).trans rfl⟩

/-- C3: in every round, whether the move was accepted or not, exactly one
bookkeeping update occurs: `ln_f` is added to `ln_g` at the final bin and the
histogram count at the final bin grows by one; consequently, when every bin
index produced by the mapper is in range, `n` rounds add exactly `n` to the
histogram total, so starting from an all-zero histogram (construction or a
reset) the total after `n` rounds is `n`. -/
theorem C3_bookkeeping {S ρ σ : Type} (cfg : WLConfig S ρ σ)
    (d : WLDriver S ρ σ)
    (hloc : ∀ s, cfg.locate s < cfg.nbins)
    (hlen : d.hist.length = cfg.nbins) :
    (∃ b, b < d.hist.length ∧
      (wlRound cfg d).ln_g = d.ln_g.set b (d.ln_g.getD b 0 + d.ln_f) ∧
      (wlRound cfg d).hist = d.hist.set b (d.hist.getD b 0 + 1)) ∧
    (∀ n, ((wlRound cfg)^[n] d).hist.sum = d.hist.sum + n) := by
  constructor
  · obtain ⟨b, hb, hg, hh⟩ := wlRound_exists_bin cfg d
    refine ⟨b, ?_, hg, hh⟩
    rw [hlen]
    rcases hb with rfl | rfl
    · exact hloc _
    · exact hloc _
  · intro n
    induction n with
    | zero => simp
    | succ m ih =>
      rw [Function.iterate_succ_apply']
      obtain ⟨b, hb, _, hh⟩ := wlRound_exists_bin cfg ((wlRound cfg)^[m] d)
      have hlm : ((wlRound cfg)^[m] d).hist.length = cfg.nbins :=
        (roundsN_const cfg d m).2.2.2.2.1.trans hlen
      have hblt : b < ((wlRound cfg)^[m] d).hist.length := by
        rw [hlm]
        rcases hb with rfl | rfl
        · exact hloc _
        · exact hloc _
      rw [hh, sum_set_getD_add_one _ _ hblt, ih]
      omega

/-- Witness for C3: three rounds of the two-bin engine take the histogram
total from 0 to 3. -/
theorem C3_bookkeeping_witness : ((wlRound cfgSame)^[3] dInit).hist.sum = 3 := by
  have h := (C3_bookkeeping cfgSame dInit
    (fun s => Nat.mod_lt s (by decide)) rfl).2 3
  exact h.trans (by decide)

/-- A single round never decreases any `ln_g` entry when `ln_f` is
non-negative. -/
theorem wlRound_ln_g_mono {S ρ σ : Type} (cfg : WLConfig S ρ σ)
    (d : WLDriver S ρ σ) (h0 : 0 ≤ d.ln_f) (i : ℕ) :
    d.ln_g.getD i 0 ≤ (wlRound cfg d).ln_g.getD i 0 := by
  obtain ⟨b, _, hg, _⟩ := wlRound_exists_bin cfg d
  rw [hg]
  exact getD_le_set_add d.ln_g b i d.ln_f h0

/-- Iterated rounds never decrease any `ln_g` entry when `ln_f` is
non-negative (`ln_f` is constant during the rounds). -/
theorem roundsN_ln_g_mono {S ρ σ : Type} (cfg : WLConfig S ρ σ)
    (d : WLDriver S ρ σ) (h0 : 0 ≤ d.ln_f) (n i : ℕ) :
    d.ln_g.getD i 0 ≤ ((wlRound cfg)^[n] d).ln_g.getD i 0 := by
  induction n with
  | zero => simp
  | succ m ih =>
    rw [Function.iterate_succ_apply']
    refine le_trans ih (wlRound_ln_g_mono cfg _ ?_ i)
    rw [(roundsN_const cfg d m).2.2.2.1]
    exact h0

/-- `step` leaves `ln_g` exactly as the rounds left it. -/
theorem stepD_ln_g {S ρ σ : Type} (cfg : WLConfig S ρ σ)
    (d : WLDriver S ρ σ) :
    (stepD cfg d).ln_g = ((wlRound cfg)^[d.params.sweep_len] d).ln_g := by
  simp only [stepD, WLDriver.step]
  split_ifs <;> rfl

/-- `step` preserves non-negativity of `ln_f` whenever the schedule's update
does. -/
theorem stepD_ln_f_nonneg {S ρ σ : Type} (cfg : WLConfig S ρ σ)
    (d : WLDriver S ρ σ)
    (hsched : ∀ s f, 0 ≤ f → 0 ≤ (cfg.schedUpdate s f).1)
    (h0 : 0 ≤ d.ln_f) : 0 ≤ (stepD cfg d).ln_f := by
  have hf : ((wlRound cfg)^[d.params.sweep_len] d).ln_f = d.ln_f :=
    (roundsN_const cfg d d.params.sweep_len).2.2.2.1
  simp only [stepD, WLDriver.step]
  split_ifs
  · exact hsched _ _ (hf ▸ h0)
  · exact hsched _ _ (hf ▸ h0)
  · exact hf ▸ h0

/-- C8: for every engine whose modification factor stays non-negative (any
starting `0 ≤ ln_f` together with a schedule whose update preserves
non-negativity), every `ln_g` entry is monotonically non-decreasing across
rounds and across whole `step` calls; the Geometric schedule with
`0 ≤ alpha` and the 1/t schedule preserve non-negativity, covering the
claim's examples. -/
theorem C8_ln_g_monotone {S ρ σ : Type} (cfg : WLConfig S ρ σ)
    (d : WLDriver S ρ σ)
    (hsched : ∀ s f, 0 ≤ f → 0 ≤ (cfg.schedUpdate s f).1)
    (h0 : 0 ≤ d.ln_f) :
    (∀ m i, d.ln_g.getD i 0 ≤ ((wlRound cfg)^[m] d).ln_g.getD i 0) ∧
    (∀ n i, d.ln_g.getD i 0 ≤ ((stepD cfg)^[n] d).ln_g.getD i 0) ∧
    (∀ (g : Geometric) (f : ℚ), 0 ≤ g.alpha → 0 ≤ f →
      0 ≤ (Geometric.update g f).1) ∧
    (∀ (o : OneOverT) (f : ℚ), 0 ≤ (OneOverT.update o f).1) := by
  refine ⟨fun m i => roundsN_ln_g_mono cfg d h0 m i, ?_, ?_, ?_⟩
  · have key : ∀ n, 0 ≤ ((stepD cfg)^[n] d).ln_f ∧
        ∀ i, d.ln_g.getD i 0 ≤ ((stepD cfg)^[n] d).ln_g.getD i 0 := by
      intro n
      induction n with
      | zero => exact ⟨h0, fun i => le_refl _⟩
      | succ m ih =>
        rw [Function.iterate_succ_apply']
        refine ⟨stepD_ln_f_nonneg cfg _ hsched ih.1, fun i => ?_⟩
        refine le_trans (ih.2 i) ?_
        rw [stepD_ln_g]
        exact roundsN_ln_g_mono cfg _ ih.1 _ i
    exact fun n i => (key n).2 i
  · intro g f ha hf
    exact mul_nonneg hf ha
  · intro o f
    show (0 : ℚ) ≤ 1 / ((o.t + 1 : ℕ) : ℚ)
    positivity

/-- Witness for C8: two steps of the two-bin engine (whose schedule update is
the identity on `ln_f`) never decrease the first `ln_g` entry. -/
theorem C8_ln_g_monotone_witness :
    dInit.ln_g.getD 0 0 ≤ ((stepD cfgSame)^[2] dInit).ln_g.getD 0 0 := by
  have h := C8_ln_g_monotone cfgSame dInit (fun _ _ hf => hf) zero_le_one
  exact h.2.1 2 0

/-- C9: two engines constructed with identical initial state, parameters,
strategy objects (configuration and schedule state) and identically seeded
random sources, driven by the same number of `step` calls, agree on `ln_g`,
histogram, `ln_f`, step counter, current state and rng state: the step
function is deterministic in the full engine state including the rng
state. -/
theorem C9_determinism {S ρ σ : Type} (cfg1 cfg2 : WLConfig S ρ σ)
    (s1 s2 : S) (p1 p2 : Params) (sc1 sc2 : σ) (r1 r2 : ρ) (n : ℕ)
    (hcfg : cfg1 = cfg2) (hs : s1 = s2) (hp : p1 = p2) (hsc : sc1 = sc2)
    (hr : r1 = r2) :
    ((stepD cfg1)^[n] (WLDriver.new s1 cfg1.nbins p1 sc1 r1)).ln_g
      = ((stepD cfg2)^[n] (WLDriver.new s2 cfg2.nbins p2 sc2 r2)).ln_g ∧
    ((stepD cfg1)^[n] (WLDriver.new s1 cfg1.nbins p1 sc1 r1)).hist
      = ((stepD cfg2)^[n] (WLDriver.new s2 cfg2.nbins p2 sc2 r2)).hist ∧
    ((stepD cfg1)^[n] (WLDriver.new s1 cfg1.nbins p1 sc1 r1)).ln_f
      = ((stepD cfg2)^[n] (WLDriver.new s2 cfg2.nbins p2 sc2 r2)).ln_f ∧
    ((stepD cfg1)^[n] (WLDriver.new s1 cfg1.nbins p1 sc1 r1)).stepCount
      = ((stepD cfg2)^[n] (WLDriver.new s2 cfg2.nbins p2 sc2 r2)).stepCount ∧
    ((stepD cfg1)^[n] (WLDriver.new s1 cfg1.nbins p1 sc1 r1)).state
      = ((stepD cfg2)^[n] (WLDriver.new s2 cfg2.nbins p2 sc2 r2)).state ∧
    ((stepD cfg1)^[n] (WLDriver.new s1 cfg1.nbins p1 sc1 r1)).rng
      = ((stepD cfg2)^[n] (WLDriver.new s2 cfg2.nbins p2 sc2 r2)).rng := by
  subst hcfg hs hp hsc hr
  exact ⟨rfl, rfl, rfl, rfl, rfl, rfl⟩

/-- Witness for C9: two identically constructed two-bin engines agree on
everything after one step. -/
theorem C9_determinism_witness :
    ((stepD cfgSame)^[1] (WLDriver.new 0 cfgSame.nbins Params.default () 0)).ln_g
      = ((stepD cfgSame)^[1]
          (WLDriver.new 0 cfgSame.nbins Params.default () 0)).ln_g ∧
    ((stepD cfgSame)^[1] (WLDriver.new 0 cfgSame.nbins Params.default () 0)).rng
      = ((stepD cfgSame)^[1]
          (WLDriver.new 0 cfgSame.nbins Params.default () 0)).rng := by
  have h := C9_determinism cfgSame cfgSame 0 0 Params.default Params.default
    () () 0 0 1 rfl rfl rfl rfl rfl
  exact ⟨h.1, h.2.2.2.2.2⟩

/-- Justification of the sqrt-free form used in `RMS.is_flat`: for a
non-negative variance and a positive mean, the coefficient-of-variation test
`sqrt v / m ≤ c` of `src/flatness.rs` line 95-97 is equivalent to
`0 ≤ c ∧ v ≤ (c * m)^2`. -/
theorem rms_sqrt_squared_form (v m c : ℝ) (hv : 0 ≤ v) (hm : 0 < m) :
    Real.sqrt v / m ≤ c ↔ (0 ≤ c ∧ v ≤ (c * m) ^ 2) := by
  rw [div_le_iff₀ hm]
  constructor
  · intro h
    have hc : 0 ≤ c * m := le_trans (Real.sqrt_nonneg v) h
    refine ⟨(mul_nonneg_iff_of_pos_right hm).mp hc, ?_⟩
    calc v = Real.sqrt v ^ 2 := (Real.sq_sqrt hv).symm
      _ ≤ (c * m) ^ 2 := by
        exact pow_le_pow_left₀ (Real.sqrt_nonneg v) h 2
  · rintro ⟨hc, hv2⟩
    have h := Real.sqrt_le_sqrt hv2
    rwa [Real.sqrt_sq (mul_nonneg hc hm.le)] at h
